import Mathlib

/-!
Shallow embedding of the Pareto dominance and frontier-aggregation core of
this repository: `dominates` and `hypervolume_contribution` from
`src/llm4ad/method/momcts/utils.py`, and the aggregation pipeline of
`compare_pareto_from_algorithms` from `src/analysis/plot_pareto_front.py`.

Python floats are modelled as rationals (with the final square root of
`hypervolume_contribution` taken in `ℝ`); a Python exception is modelled as
`Option.none` / `Except.error`.  Objective vectors are plain lists of
rationals, matching the loosely typed numeric lists of the source.
-/

/-- An objective vector: an ordered sequence of numbers, one per objective. -/
abbrev Vec := List ℚ

namespace Momcts

/-- The loop body of `dominates(objective_a, objective_b)`
(src/llm4ad/method/momcts/utils.py, lines 38-46).  The loop runs over the
indices of `objective_a`; `s` is the running `is_strictly_better` flag.
`none` models the `IndexError` Python raises when `objective_b` is shorter
than `objective_a` and the loop reaches index `len(objective_b)`. -/
def dominatesAux : Vec → Vec → Bool → Option Bool
  | [], _, s => some s
  | _ :: _, [], _ => none
  | x :: xs, y :: ys, s =>
    if y < x then some false
    else dominatesAux xs ys (s || decide (x < y))

/-- Function `dominates(objective_a, objective_b)` from
src/llm4ad/method/momcts/utils.py: starts the loop with
`is_strictly_better = False`. -/
def dominates (a b : Vec) : Option Bool := dominatesAux a b false

/-- The only part of the `Function` class (from `llm4ad.base`, outside src/)
that `hypervolume_contribution` touches: its `score` attribute, an objective
vector. -/
structure Function where
  score : Vec
  deriving DecidableEq

/-- The summand list of `hypervolume_contribution`:
`sum([(objective[i] - other.score[i])**2 for i in range(len(objective))])`.
The sum runs over the indices of `objective`; `none` models the `IndexError`
raised when `other.score` is shorter than `objective`. -/
def sumSq : Vec → Vec → Option ℚ
  | [], _ => some 0
  | _ :: _, [] => none
  | x :: xs, y :: ys => (sumSq xs ys).map fun s => (x - y) ^ 2 + s

/-- Python's `min` over a list of floats (left fold; only applied to
non-empty lists in the source, the `[]` case is unreachable there). -/
def pyMin : List ℝ → ℝ
  | [] => 0
  | x :: xs => xs.foldl min x

/-- Function `hypervolume_contribution(objective, pareto_front)` from
src/llm4ad/method/momcts/utils.py, lines 48-55: `0.0` on an empty front,
otherwise the minimum over the front of the Euclidean distance from
`objective` to each member's `score`. -/
noncomputable def hypervolume_contribution (objective : Vec)
    (pareto_front : List Function) : Option ℝ :=
  if pareto_front.isEmpty then some 0
  else
    (pareto_front.mapM fun other => sumSq objective other.score).map
      fun sqs => pyMin (sqs.map fun s : ℚ => Real.sqrt (s : ℝ))

/-- The Euclidean distance `sqrt(sum_i (objective[i] - p[i])^2)` over the
indices of `objective`, written with real-valued coordinates; used to state
what `hypervolume_contribution` returns. -/
noncomputable def euclid (objective p : Vec) : ℝ :=
  Real.sqrt (∑ i ∈ Finset.range objective.length,
    ((objective.getD i 0 : ℝ) - (p.getD i 0 : ℝ)) ^ 2)

end Momcts

namespace PlotPareto

/-- The absolute tolerance passed to `np.allclose` at
src/analysis/plot_pareto_front.py line 112: `atol=1e-8`. -/
def atol : ℚ := 1 / 100000000

/-- numpy's default relative tolerance, which the call at line 112 leaves in
place: `rtol=1e-5`. -/
def rtol : ℚ := 1 / 100000

/-- The call `np.allclose(score, point, atol=1e-8)` on equal-length rows: numpy tests
`|score[i] - point[i]| <= atol + rtol * |point[i]|` per coordinate, with the
default `rtol = 1e-5` still in effect. -/
def allclose (score point : Vec) : Bool :=
  score.length == point.length &&
    (score.zip point).all fun q => decide (|q.1 - q.2| ≤ atol + rtol * |q.2|)

/-- Modelled from the spec: the dominance relation of §4.1 as used by the
frontier extractor of §4.2 (the extractor itself is not under src/: the
local fronts use `find_pareto_front_from_scores` from the missing
`src/analysis/utils.py`, the global front uses pymoo's
`NonDominatedSorting`).  `a` dominates `b` iff they have equal length,
`a[i] ≤ b[i]` everywhere and `a[i] < b[i]` somewhere. -/
def specDominates (a b : Vec) : Bool :=
  a.length == b.length &&
    ((a.zip b).all fun q => decide (q.1 ≤ q.2)) &&
    ((a.zip b).any fun q => decide (q.1 < q.2))

/-- Modelled from the spec: `extract_frontier` of §4.2 — a vector is
retained iff no other input vector dominates it, input order preserved,
duplicates all kept. -/
def extract_frontier (vectors : List Vec) : List Vec :=
  vectors.filter fun v => !(vectors.any fun w => specDominates w v)

/-- The outputs `compare_pareto_from_algorithms` computes (with
`show_global=True`): the per-algorithm local fronts (`algo_fronts`), the
global front (`global_pf`) and the attribution
(`contribution_count`/`contribution_points`, kept side by side per label). -/
structure AggResult where
  algoFronts : List (String × List Vec)
  globalPF : List Vec
  contribution : List (String × Nat × List Vec)
  deriving DecidableEq

/-- The hard failure of the aggregation: the `ValueError` raised at
src/analysis/plot_pareto_front.py line 94 (the spec's EmptyInput). -/
inductive AggError
  | emptyInput
  deriving DecidableEq

/-- The evaluation-budget cutoff of lines 50-51: `algo_scores[:max_fe]`
when `max_fe` is given. -/
def truncateFe (maxFe : Option Nat) (s : List Vec) : List Vec :=
  match maxFe with
  | none => s
  | some k => s.take k

/-- The body of step 1 for one algorithm: concatenate its score
collections, drop the algorithm if nothing was collected (lines 45-47,
checked before truncation), else truncate to the first `max_fe` entries
(lines 49-51). -/
def stepFilter (maxFe : Option Nat) (p : String × List (List Vec)) :
    Option (String × List Vec) :=
  if p.2.flatten.isEmpty then none else some (p.1, truncateFe maxFe p.2.flatten)

/-- Step 1 of the aggregation (lines 36-55) over all algorithms, in their
supplied order. -/
def processed (sources : List (String × List (List Vec))) (maxFe : Option Nat) :
    List (String × List Vec) :=
  sources.filterMap (stepFilter maxFe)

/-- The pairing `zip(all_scores, algo_labels)` of line 111: the pooled rows in pooling
order, each paired with the label of the algorithm that produced it. -/
def pooled (sources : List (String × List (List Vec))) (maxFe : Option Nat) :
    List (String × Vec) :=
  ((processed sources maxFe).map fun p => p.2.map fun v => (p.1, v)).flatten

/-- The inner loop of lines 111-115: the label of the first pooled row that
`allclose`-matches `pt`, if any (the `break` makes it first-match-wins). -/
def firstMatchLabel (pool : List (String × Vec)) (pt : Vec) : Option String :=
  (pool.find? fun sv => allclose sv.2 pt).map Prod.fst

/-- The update `contribution_count[l] += 1; contribution_points[l].append(pt)` on an
association list keyed by label. -/
def bump (l : String) (pt : Vec) :
    List (String × Nat × List Vec) → List (String × Nat × List Vec)
  | [] => []
  | e :: rest =>
    if e.1 = l then (e.1, e.2.1 + 1, e.2.2 ++ [pt]) :: rest
    else e :: bump l pt rest

/-- One iteration of the attribution loop (lines 110-115) for one global
point: credit the label of the first `allclose`-matching pooled row, or do
nothing when no row matches. -/
def attrStep (pool : List (String × Vec))
    (acc : List (String × Nat × List Vec)) (pt : Vec) :
    List (String × Nat × List Vec) :=
  match firstMatchLabel pool pt with
  | none => acc
  | some l => bump l pt acc

/-- The aggregation pipeline of `compare_pareto_from_algorithms`
(src/analysis/plot_pareto_front.py) with `show_global=True`, stripped of
the plotting/printing the spec places out of scope.  File reading
(`read_score_from_path`, not under src/) is replaced by the already-read
score collections, per the §6 collaborator contract.  The counts and point
lists start at `0`/`[]` for every label of the input mapping (lines
107-108). -/
def aggregate (sources : List (String × List (List Vec))) (maxFe : Option Nat) :
    Except AggError AggResult :=
  let proc := processed sources maxFe
  if proc.isEmpty then Except.error AggError.emptyInput
  else
    let allScores := (proc.map Prod.snd).flatten
    let globalPF := extract_frontier allScores
    Except.ok
      { algoFronts := proc.map fun p => (p.1, extract_frontier p.2)
        globalPF := globalPF
        contribution := globalPF.foldl (attrStep (pooled sources maxFe))
          (sources.map fun p => (p.1, 0, ([] : List Vec))) }

/-- First-key lookup in a label-keyed association list. -/
def lookupS {α : Type} (l : String) : List (String × α) → Option α
  | [] => none
  | e :: rest => if e.1 = l then some e.2 else lookupS l rest

/-- The total of the per-source attributed counts. -/
def sumC (acc : List (String × Nat × List Vec)) : Nat :=
  (acc.map fun e => e.2.1).sum

/-- The matching rule as the spec's words read (§4.4 step 4, §9): a pure
absolute per-coordinate tolerance of `1e-8`, stated here only to compare
with the `allclose` comparison the code performs. -/
def absClose (score point : Vec) : Bool :=
  score.length == point.length &&
    (score.zip point).all fun q => decide (|q.1 - q.2| ≤ atol)

/-- The label of the first pooled row within the spec's pure absolute
tolerance of `pt`, for comparison with `firstMatchLabel`. -/
def firstAbsMatchLabel (pool : List (String × Vec)) (pt : Vec) : Option String :=
  (pool.find? fun sv => absClose sv.2 pt).map Prod.fst

end PlotPareto

deriving instance DecidableEq for Except

/-- The two-source scenario of spec §8 item 8. -/
def sampleSources : List (String × List (List Vec)) :=
  [("A", [[[-18, -17], [-19, -15]]]), ("B", [[[-17, -19]]])]

/-- What `aggregate` produces on `sampleSources`: both of A's points and
B's point are everywhere Pareto-optimal, and each traces back to its own
source. -/
def sampleResult : PlotPareto.AggResult :=
  { algoFronts := [("A", [[-18, -17], [-19, -15]]), ("B", [[-17, -19]])]
    globalPF := [[-18, -17], [-19, -15], [-17, -19]]
    contribution := [("A", 2, [[-18, -17], [-19, -15]]), ("B", 1, [[-17, -19]])] }

/-- Two sources whose rows differ by `0.005` in the first coordinate:
within numpy's default relative tolerance at magnitude `1000`, far outside
the absolute tolerance `1e-8`. -/
def mismatchSources : List (String × List (List Vec)) :=
  [("A", [[[200001 / 200, 0]]]), ("B", [[[1000, 0]]])]

/-- An input whose source "A" contributes no vectors at all. -/
def emptySourceInput : List (String × List (List Vec)) :=
  [("A", []), ("B", [[[0, 0]]])]

/-- What `aggregate` produces on `emptySourceInput`: "A" is skipped from
the local fronts yet still carried in the attribution with count 0. -/
def emptySourceResult : PlotPareto.AggResult :=
  { algoFronts := [("B", [[0, 0]])]
    globalPF := [[0, 0]]
    contribution := [("A", 0, []), ("B", 1, [[0, 0]])] }

/-- What `aggregate` produces on `mismatchSources`: B's exact point is the
sole global-frontier point, yet A is credited for it, because A's nearby
point precedes it in pooling order and `allclose` accepts the 0.005 gap. -/
def mismatchResult : PlotPareto.AggResult :=
  { algoFronts := [("A", [[200001 / 200, 0]]), ("B", [[1000, 0]])]
    globalPF := [[1000, 0]]
    contribution := [("A", 1, [[1000, 0]]), ("B", 0, [])] }

/-- A single source with two rows, used to exercise the limit truncation. -/
def limitSources : List (String × List (List Vec)) :=
  [("A", [[[1, 2], [3, 4]]])]

/-- What `aggregate limitSources (some 1)` produces, and equally what the
direct run on just the first entry produces. -/
def limitResult : PlotPareto.AggResult :=
  { algoFronts := [("A", [[1, 2]])]
    globalPF := [[1, 2]]
    contribution := [("A", 1, [[1, 2]])] }

/-! ## Dominance: index-wise characterisation of the loop -/

/-- An `all` over the zip of equal-length lists holds iff the predicate holds
at every index. -/
theorem zip_all_eq_true_iff (p : ℚ → ℚ → Bool) :
    ∀ (a b : Vec), a.length = b.length →
      ((((a.zip b).all fun q => p q.1 q.2) = true) ↔
        ∀ i < a.length, p (a.getD i 0) (b.getD i 0) = true)
  | [], [], _ => by simp
  | [], _ :: _, h => by simp at h
  | _ :: _, [], h => by simp at h
  | x :: xs, y :: ys, h => by
    have h' : xs.length = ys.length := by simpa using h
    have ih := zip_all_eq_true_iff p xs ys h'
    simp only [List.zip_cons_cons, List.all_cons, Bool.and_eq_true, ih,
      List.length_cons]
    constructor
    · rintro ⟨h0, hrest⟩ i hi
      cases i with
      | zero => simpa using h0
      | succ n => simpa using hrest n (by omega)
    · intro hall
      refine ⟨by simpa using hall 0 (by omega), fun i hi => ?_⟩
      simpa using hall (i + 1) (by omega)

/-- An `any` over the zip of equal-length lists holds iff the predicate holds
at some index. -/
theorem zip_any_eq_true_iff (p : ℚ → ℚ → Bool) :
    ∀ (a b : Vec), a.length = b.length →
      ((((a.zip b).any fun q => p q.1 q.2) = true) ↔
        ∃ i, i < a.length ∧ p (a.getD i 0) (b.getD i 0) = true)
  | [], [], _ => by simp
  | [], _ :: _, h => by simp at h
  | _ :: _, [], h => by simp at h
  | x :: xs, y :: ys, h => by
    have h' : xs.length = ys.length := by simpa using h
    have ih := zip_any_eq_true_iff p xs ys h'
    simp only [List.zip_cons_cons, List.any_cons, Bool.or_eq_true, ih,
      List.length_cons]
    constructor
    · rintro (h0 | ⟨i, hi, hp⟩)
      · exact ⟨0, by omega, by simpa using h0⟩
      · exact ⟨i + 1, by omega, by simpa using hp⟩
    · rintro ⟨i, hi, hp⟩
      cases i with
      | zero => exact Or.inl (by simpa using hp)
      | succ n => exact Or.inr ⟨n, by omega, by simpa using hp⟩

/-- When `a` is no longer than `b`, the `dominates` loop terminates without
an index error and computes "every common coordinate of `a` is ≤, and the
flag or some coordinate is strictly <". -/
theorem dominatesAux_eq_of_le : ∀ (a b : Vec) (s : Bool), a.length ≤ b.length →
    Momcts.dominatesAux a b s =
      some ((((a.zip b).all fun q => decide (q.1 ≤ q.2))) &&
        (s || (a.zip b).any fun q => decide (q.1 < q.2)))
  | [], _, s, _ => by simp [Momcts.dominatesAux]
  | _ :: _, [], _, h => by simp at h
  | x :: xs, y :: ys, s, h => by
    have h' : xs.length ≤ ys.length := by simpa using h
    by_cases hyx : y < x
    · have h1 : ¬(x ≤ y) := not_le.mpr hyx
      simp [Momcts.dominatesAux, hyx, h1]
    · have h1 : x ≤ y := le_of_not_lt hyx
      rw [show Momcts.dominatesAux (x :: xs) (y :: ys) s =
            Momcts.dominatesAux xs ys (s || decide (x < y)) by
          simp [Momcts.dominatesAux, hyx],
        dominatesAux_eq_of_le xs ys _ h']
      simp [h1, Bool.or_assoc]

/-- When `a` is no longer than `b`, the loop only ever reads the first
`len(a)` entries of `b`. -/
theorem dominatesAux_prefix : ∀ (a b : Vec) (s : Bool), a.length ≤ b.length →
    Momcts.dominatesAux a b s = Momcts.dominatesAux a (b.take a.length) s
  | [], _, s, _ => by simp [Momcts.dominatesAux]
  | _ :: _, [], _, h => by simp at h
  | x :: xs, y :: ys, s, h => by
    have h' : xs.length ≤ ys.length := by simpa using h
    by_cases hyx : y < x
    · simp [Momcts.dominatesAux, hyx]
    · simp [Momcts.dominatesAux, hyx, dominatesAux_prefix xs ys _ h']

/-- When `a` is strictly longer than `b`, the loop raises IndexError at
index `len(b)` unless some earlier coordinate of `a` exceeds `b`'s, in
which case it returns `False` first. -/
theorem dominatesAux_long : ∀ (a b : Vec) (s : Bool), b.length < a.length →
    Momcts.dominatesAux a b s =
      if (a.zip b).all (fun q => decide (q.1 ≤ q.2)) then none else some false
  | [], _, _, h => by simp at h
  | _ :: _, [], _, _ => by simp [Momcts.dominatesAux]
  | x :: xs, y :: ys, s, h => by
    have h' : ys.length < xs.length := by simpa using h
    by_cases hyx : y < x
    · have h1 : ¬(x ≤ y) := not_le.mpr hyx
      simp [Momcts.dominatesAux, hyx, h1]
    · have h1 : x ≤ y := le_of_not_lt hyx
      have h2 : decide (x ≤ y) = true := decide_eq_true h1
      simp [Momcts.dominatesAux, hyx, dominatesAux_long xs ys _ h']
      rw [h2, Bool.true_and]

/-- C1: for equal-length vectors, `dominates a b` returns `True` iff
`a[i] ≤ b[i]` at every index and `a[i] < b[i]` at some index; in
particular `dominates a a` returns `False`, and `dominates a b` returns
`False` whenever some coordinate of `a` exceeds the corresponding
coordinate of `b`. -/
theorem dominates_characterization (a b : Vec) (h : a.length = b.length) :
    (Momcts.dominates a b = some true ↔
      ((∀ i < a.length, a.getD i 0 ≤ b.getD i 0) ∧
        ∃ i < a.length, a.getD i 0 < b.getD i 0)) ∧
    Momcts.dominates a a = some false ∧
    ((∃ i < a.length, b.getD i 0 < a.getD i 0) →
      Momcts.dominates a b = some false) := by
  have hall := zip_all_eq_true_iff (fun u v => decide (u ≤ v)) a b h
  have hany := zip_any_eq_true_iff (fun u v => decide (u < v)) a b h
  have hchar := dominatesAux_eq_of_le a b false h.le
  refine ⟨?_, ?_, ?_⟩
  · rw [Momcts.dominates, hchar]
    simp only [Option.some.injEq, Bool.false_or, Bool.and_eq_true]
    constructor
    · rintro ⟨h1, h2⟩
      refine ⟨fun i hi => by simpa using hall.mp h1 i hi, ?_⟩
      obtain ⟨i, hi, hp⟩ := hany.mp h2
      exact ⟨i, hi, by simpa using hp⟩
    · rintro ⟨h1, h2⟩
      refine ⟨hall.mpr fun i hi => by simpa using h1 i hi, hany.mpr ?_⟩
      obtain ⟨i, hi, hp⟩ := h2
      exact ⟨i, hi, by simpa using hp⟩
  · rw [Momcts.dominates, dominatesAux_eq_of_le a a false le_rfl]
    have hno : ((a.zip a).any fun q => decide (q.1 < q.2)) = false := by
      rw [Bool.eq_false_iff]
      intro htrue
      obtain ⟨i, _, hp⟩ :=
        (zip_any_eq_true_iff (fun u v => decide (u < v)) a a rfl).mp htrue
      simp only [decide_eq_true_eq] at hp
      exact absurd hp (lt_irrefl _)
    simp [hno]
  · rintro ⟨i, hi, hlt⟩
    rw [Momcts.dominates, hchar]
    have hno : ((a.zip b).all fun q => decide (q.1 ≤ q.2)) = false := by
      rw [Bool.eq_false_iff]
      intro htrue
      have := hall.mp htrue i hi
      simp only [decide_eq_true_eq] at this
      exact absurd hlt (not_lt.mpr this)
    simp [hno]

/-- Witness for C1 at `a = [1, 2]`, `b = [1, 3]`. -/
theorem dominates_characterization_witness :
    Momcts.dominates [(1 : ℚ), 2] [1, 3] = some true :=
  (dominates_characterization [(1 : ℚ), 2] [1, 3] rfl).1.mpr (by decide)

/-- C9: for equal-length vectors, `dominates a b` and `dominates b a` are
never both `True`. -/
theorem dominates_antisymm (a b : Vec) (h : a.length = b.length) :
    ¬(Momcts.dominates a b = some true ∧ Momcts.dominates b a = some true) := by
  rintro ⟨hab, hba⟩
  rw [Momcts.dominates, dominatesAux_eq_of_le a b false h.le] at hab
  rw [Momcts.dominates, dominatesAux_eq_of_le b a false h.ge] at hba
  simp only [Option.some.injEq, Bool.false_or, Bool.and_eq_true] at hab hba
  obtain ⟨_, hany⟩ := hab
  obtain ⟨hall, _⟩ := hba
  obtain ⟨i, hi, hp⟩ :=
    (zip_any_eq_true_iff (fun u v => decide (u < v)) a b h).mp hany
  have hle :=
    (zip_all_eq_true_iff (fun u v => decide (u ≤ v)) b a h.symm).mp hall i (h ▸ hi)
  simp only [decide_eq_true_eq] at hp hle
  exact absurd hp (not_lt.mpr hle)

/-- Witness for C9 at `a = [1]`, `b = [2]`. -/
theorem dominates_antisymm_witness :
    ¬(Momcts.dominates [(1 : ℚ)] [2] = some true ∧
      Momcts.dominates [(2 : ℚ)] [1] = some true) :=
  dominates_antisymm [(1 : ℚ)] [2] rfl

/-- C3 counterexample: on the unequal-length pair `a = [1]`, `b = [2, 3]`
the code returns `True` (it silently compares only the common prefix)
instead of failing with an error. -/
theorem dominates_unequal_counterexample :
    Momcts.dominates [(1 : ℚ)] [2, 3] = some true ∧
    ([(1 : ℚ)] : Vec).length ≠ ([2, 3] : Vec).length := by decide

/-- C3 amended: `dominates` performs no length validation.  When `a` is
shorter it silently compares only the first `len(a)` coordinates; when `a`
is longer it raises an IndexError upon reaching index `len(b)`, unless an
earlier coordinate of `a` exceeds `b`'s, in which case it returns `False`
first. -/
theorem dominates_unequal (a b : Vec) (h : a.length ≠ b.length) :
    (a.length < b.length →
      Momcts.dominates a b = Momcts.dominates a (b.take a.length)) ∧
    (b.length < a.length →
      Momcts.dominates a b =
        if (a.zip b).all (fun q => decide (q.1 ≤ q.2)) then none
        else some false) :=
  ⟨fun hlt => dominatesAux_prefix a b false hlt.le,
   fun hlt => dominatesAux_long a b false hlt⟩

/-- Witness for C3 amended at `a = [1, 2]`, `b = [3, 4, 5]`. -/
theorem dominates_unequal_witness :
    Momcts.dominates [(1 : ℚ), 2] [3, 4, 5] =
      Momcts.dominates [(1 : ℚ), 2] (([3, 4, 5] : Vec).take 2) :=
  (dominates_unequal [(1 : ℚ), 2] [3, 4, 5] (by decide)).1 (by decide)

/-! ## Hypervolume contribution -/

/-- When `a` is no longer than `b`, the squared-difference sum succeeds and
equals the index-wise sum over the indices of `a`. -/
theorem sumSq_eq_some : ∀ (a b : Vec), a.length ≤ b.length →
    Momcts.sumSq a b =
      some (∑ i ∈ Finset.range a.length, (a.getD i 0 - b.getD i 0) ^ 2)
  | [], _, _ => by simp [Momcts.sumSq]
  | _ :: _, [], h => by simp at h
  | x :: xs, y :: ys, h => by
    have h' : xs.length ≤ ys.length := by simpa using h
    rw [Momcts.sumSq, sumSq_eq_some xs ys h']
    simp [Finset.sum_range_succ']
    try exact add_comm _ _

/-- When every score is long enough, the distance list materialises. -/
theorem mapM_sumSq_eq : ∀ (objective : Vec) (front : List Momcts.Function),
    (∀ p ∈ front, objective.length ≤ p.score.length) →
    (front.mapM fun other => Momcts.sumSq objective other.score) =
      some (front.map fun other =>
        ∑ i ∈ Finset.range objective.length,
          (objective.getD i 0 - other.score.getD i 0) ^ 2)
  | _, [], _ => by rw [List.mapM_nil]; rfl
  | objective, p :: front, h => by
    have h1 := sumSq_eq_some objective p.score (h p (by simp))
    have h2 := mapM_sumSq_eq objective front fun q hq => h q (by simp [hq])
    rw [List.mapM_cons, h1, h2]
    rfl

/-- A `mapM` over `Option` preserves length when it succeeds. -/
theorem mapM_option_length {α β : Type} (f : α → Option β) :
    ∀ (l : List α) (r : List β), l.mapM f = some r → r.length = l.length
  | [], r, h => by
    rw [List.mapM_nil] at h
    cases h
    rfl
  | a :: l, r, h => by
    rw [List.mapM_cons] at h
    cases hfa : f a with
    | none => rw [hfa] at h; simp at h
    | some b =>
      cases hrest : l.mapM f with
      | none => rw [hfa, hrest] at h; simp at h
      | some bs =>
        rw [hfa, hrest] at h
        simp at h
        have := mapM_option_length f l bs hrest
        simp [← h, this]

/-- A left fold by `min` never exceeds its initial value. -/
theorem foldl_min_le_init : ∀ (xs : List ℝ) (a : ℝ), xs.foldl min a ≤ a
  | [], _ => le_rfl
  | x :: xs, a => le_trans (foldl_min_le_init xs (min a x)) (min_le_left a x)

/-- A left fold by `min` never exceeds any list member. -/
theorem foldl_min_le_mem : ∀ (xs : List ℝ) (a x : ℝ), x ∈ xs → xs.foldl min a ≤ x
  | [], _, _, hx => absurd hx (List.not_mem_nil _)
  | y :: ys, a, x, hx => by
    rcases List.mem_cons.mp hx with h | h
    · subst h
      exact le_trans (foldl_min_le_init ys (min a x)) (min_le_right a x)
    · exact foldl_min_le_mem ys (min a y) x h

/-- A left fold by `min` is the initial value or a list member. -/
theorem foldl_min_mem : ∀ (xs : List ℝ) (a : ℝ),
    xs.foldl min a = a ∨ xs.foldl min a ∈ xs
  | [], _ => Or.inl rfl
  | x :: xs, a => by
    rcases foldl_min_mem xs (min a x) with h | h
    · rcases le_total a x with hax | hxa
      · exact Or.inl (by rw [List.foldl_cons, h, min_eq_left hax])
      · refine Or.inr ?_
        rw [List.foldl_cons, h, min_eq_right hxa]
        exact List.mem_cons_self _ _
    · exact Or.inr (List.mem_cons_of_mem _ h)

/-- Python's `min` is a lower bound of the list. -/
theorem pyMin_le_of_mem (l : List ℝ) (x : ℝ) (hx : x ∈ l) :
    Momcts.pyMin l ≤ x := by
  cases l with
  | nil => exact absurd hx (List.not_mem_nil _)
  | cons y ys =>
    rcases List.mem_cons.mp hx with h | h
    · subst h
      exact foldl_min_le_init ys x
    · exact foldl_min_le_mem ys y x h

/-- Python's `min` of a non-empty list is attained by a member. -/
theorem pyMin_mem (l : List ℝ) (hl : l ≠ []) : Momcts.pyMin l ∈ l := by
  cases l with
  | nil => exact absurd rfl hl
  | cons y ys =>
    rcases foldl_min_mem ys y with h | h
    · simp only [Momcts.pyMin, h]
      exact List.mem_cons_self _ _
    · simp only [Momcts.pyMin]
      exact List.mem_cons_of_mem _ h

/-- The rational squared-distance sum casts to the real one. -/
theorem rat_cast_sumSq (n : ℕ) (a b : Vec) :
    ((∑ i ∈ Finset.range n, (a.getD i 0 - b.getD i 0) ^ 2 : ℚ) : ℝ) =
      ∑ i ∈ Finset.range n, ((a.getD i 0 : ℝ) - (b.getD i 0 : ℝ)) ^ 2 := by
  push_cast
  rfl

/-- On a non-empty front of long-enough scores, `hypervolume_contribution`
is the `min` of the per-point Euclidean distances. -/
theorem hv_eq_pyMin (objective : Vec) (front : List Momcts.Function)
    (hne : front ≠ [])
    (hlen : ∀ p ∈ front, objective.length ≤ p.score.length) :
    Momcts.hypervolume_contribution objective front =
      some (Momcts.pyMin (front.map fun p => Momcts.euclid objective p.score)) := by
  have hfe : front.isEmpty = false := by
    cases front with
    | nil => exact absurd rfl hne
    | cons a l => rfl
  have hfun : (fun s : ℚ => Real.sqrt (s : ℝ)) ∘
      (fun other : Momcts.Function =>
        ∑ i ∈ Finset.range objective.length,
          (objective.getD i 0 - other.score.getD i 0) ^ 2) =
      fun p : Momcts.Function => Momcts.euclid objective p.score := by
    funext p
    simp only [Function.comp_apply, Momcts.euclid]
    exact congrArg Real.sqrt (rat_cast_sumSq _ _ _)
  unfold Momcts.hypervolume_contribution
  rw [hfe]
  simp only [Bool.false_eq_true, if_false]
  rw [mapM_sumSq_eq objective front hlen]
  simp only [Option.map_some']
  rw [List.map_map, hfun]

/-- C6: `hypervolume_contribution` returns exactly `0.0` on an empty
frontier; on a non-empty frontier whose scores have the candidate's
length it returns the minimum over the frontier of the Euclidean distance
from the candidate to each point; on the spec's example the value is
`sqrt 5`. -/
theorem hypervolume_contribution_spec :
    (∀ objective : Vec,
      Momcts.hypervolume_contribution objective [] = some 0) ∧
    (∀ (objective : Vec) (front : List Momcts.Function), front ≠ [] →
      (∀ p ∈ front, p.score.length = objective.length) →
      ∃ r, Momcts.hypervolume_contribution objective front = some r ∧
        (∀ p ∈ front, r ≤ Momcts.euclid objective p.score) ∧
        ∃ p ∈ front, r = Momcts.euclid objective p.score) ∧
    Momcts.hypervolume_contribution [-16, -16]
      [⟨[-18, -17]⟩, ⟨[-17, -19]⟩] = some (Real.sqrt 5) := by
  refine ⟨fun objective => rfl, ?_, ?_⟩
  · intro objective front hne hlen
    have hlen' : ∀ p ∈ front, objective.length ≤ p.score.length :=
      fun p hp => le_of_eq (hlen p hp).symm
    have hub : ∀ p ∈ front,
        Momcts.pyMin (front.map fun q => Momcts.euclid objective q.score) ≤
          Momcts.euclid objective p.score :=
      fun p hp => pyMin_le_of_mem _ _ (List.mem_map.mpr ⟨p, hp, rfl⟩)
    have hat : ∃ p ∈ front,
        Momcts.pyMin (front.map fun q => Momcts.euclid objective q.score) =
          Momcts.euclid objective p.score := by
      have hmm := pyMin_mem (front.map fun q => Momcts.euclid objective q.score)
        (by simpa using hne)
      obtain ⟨p, hp, hpe⟩ := List.mem_map.mp hmm
      exact ⟨p, hp, hpe.symm⟩
    exact ⟨_, hv_eq_pyMin objective front hne hlen', hub, hat⟩
  · rw [hv_eq_pyMin [-16, -16] [⟨[-18, -17]⟩, ⟨[-17, -19]⟩] (by simp)
      (by decide)]
    have e1 : Momcts.euclid [-16, -16] [-18, -17] = Real.sqrt 5 := by
      simp only [Momcts.euclid]
      norm_num [Finset.sum_range_succ]
    have e2 : Momcts.euclid [-16, -16] [-17, -19] = Real.sqrt 10 := by
      simp only [Momcts.euclid]
      norm_num [Finset.sum_range_succ]
    simp only [List.map_cons, List.map_nil, e1, e2]
    simp only [Momcts.pyMin, List.foldl_cons, List.foldl_nil]
    rw [min_eq_left (Real.sqrt_le_sqrt (by norm_num))]

/-- Witness for C6's non-empty clause at candidate `[0]` and the singleton
frontier `[⟨[3]⟩]`. -/
theorem hypervolume_contribution_spec_witness :
    Momcts.hypervolume_contribution [(0 : ℚ)] [⟨[3]⟩] =
      some (Momcts.euclid [0] [3]) := by
  obtain ⟨r, hr, _, p, hp, hrp⟩ :=
    hypervolume_contribution_spec.2.1 [(0 : ℚ)] [⟨[3]⟩] (by simp) (by decide)
  have hps : p = ⟨[3]⟩ := by simpa using hp
  rw [hr, hrp, hps]

/-- C10 counterexample: the candidate `[0, 0]` coincides exactly with the
score of the first frontier point, but because the second frontier point's
score is shorter, the code raises an IndexError (modelled `none`) instead
of returning `0.0`. -/
theorem hypervolume_len_mismatch_counterexample :
    Momcts.hypervolume_contribution [(0 : ℚ), 0] [⟨[0, 0]⟩, ⟨[5]⟩] = none ∧
    (Momcts.Function.mk [(0 : ℚ), 0]) ∈
      [Momcts.Function.mk [(0 : ℚ), 0], ⟨[5]⟩] ∧
    (Momcts.Function.mk [(0 : ℚ), 0]).score = [0, 0] :=
  ⟨rfl, by decide, rfl⟩

/-- C10 amended: on a non-empty frontier in which every point's score has
at least the candidate's length, a candidate that exactly equals some
point's score gets contribution exactly `0.0`; and any returned
contribution is never negative. -/
theorem hypervolume_zero_on_match :
    (∀ (objective : Vec) (front : List Momcts.Function), front ≠ [] →
      (∀ p ∈ front, objective.length ≤ p.score.length) →
      (∃ p ∈ front, p.score = objective) →
      Momcts.hypervolume_contribution objective front = some 0) ∧
    (∀ (objective : Vec) (front : List Momcts.Function) (r : ℝ),
      Momcts.hypervolume_contribution objective front = some r → 0 ≤ r) := by
  constructor
  · intro objective front hne hlen hmatch
    rw [hv_eq_pyMin objective front hne hlen]
    obtain ⟨p, hp, hps⟩ := hmatch
    have hzero : Momcts.euclid objective p.score = 0 := by
      rw [hps]
      simp [Momcts.euclid]
    have hmem0 : (0 : ℝ) ∈ front.map fun q => Momcts.euclid objective q.score :=
      List.mem_map.mpr ⟨p, hp, hzero⟩
    have hle := pyMin_le_of_mem _ 0 hmem0
    have hge : 0 ≤ Momcts.pyMin
        (front.map fun q => Momcts.euclid objective q.score) := by
      have hmm := pyMin_mem (front.map fun q => Momcts.euclid objective q.score)
        (by simpa using hne)
      obtain ⟨q, _, hq⟩ := List.mem_map.mp hmm
      rw [← hq]
      simp only [Momcts.euclid]
      exact Real.sqrt_nonneg _
    rw [le_antisymm hle hge]
  · intro objective front r hr
    by_cases hne : front = []
    · subst hne
      have : r = 0 := by
        have h0 : Momcts.hypervolume_contribution objective [] = some 0 := rfl
        rw [h0] at hr
        exact (Option.some.inj hr).symm
      simp [this]
    · have hfe : front.isEmpty = false := by
        cases front with
        | nil => exact absurd rfl hne
        | cons a l => rfl
      cases hm : (front.mapM fun other => Momcts.sumSq objective other.score) with
      | none =>
        have hnone : Momcts.hypervolume_contribution objective front = none := by
          unfold Momcts.hypervolume_contribution
          rw [hfe, hm]
          simp
        rw [hnone] at hr
        cases hr
      | some sqs =>
        have hform : Momcts.hypervolume_contribution objective front =
            some (Momcts.pyMin (sqs.map fun s : ℚ => Real.sqrt (s : ℝ))) := by
          unfold Momcts.hypervolume_contribution
          rw [hfe, hm]
          simp
        rw [hform] at hr
        have hrq : r = Momcts.pyMin (sqs.map fun s : ℚ => Real.sqrt (s : ℝ)) :=
          (Option.some.inj hr).symm
        have hsne : sqs ≠ [] := by
          intro hnil
          have hl := mapM_option_length _ front sqs hm
          rw [hnil] at hl
          exact hne (List.length_eq_zero.mp hl.symm)
        have hmm := pyMin_mem (sqs.map fun s : ℚ => Real.sqrt (s : ℝ))
          (by simpa using hsne)
        obtain ⟨s, _, hs⟩ := List.mem_map.mp hmm
        rw [hrq, ← hs]
        exact Real.sqrt_nonneg _

/-- Witness for C10 amended at candidate `[1, 2]` and frontier
`[⟨[1, 2]⟩]`. -/
theorem hypervolume_zero_on_match_witness :
    Momcts.hypervolume_contribution [(1 : ℚ), 2] [⟨[1, 2]⟩] = some 0 :=
  hypervolume_zero_on_match.1 [(1 : ℚ), 2] [⟨[1, 2]⟩] (by simp) (by decide)
    ⟨⟨[1, 2]⟩, by simp, rfl⟩

/-! ## Aggregation: association-list and pipeline lemmas -/

/-- No algorithm survives step 1 iff every algorithm collected nothing. -/
theorem processed_eq_nil_iff (sources : List (String × List (List Vec)))
    (maxFe : Option Nat) :
    PlotPareto.processed sources maxFe = [] ↔
      ∀ p ∈ sources, p.2.flatten = ([] : List Vec) := by
  unfold PlotPareto.processed
  rw [List.filterMap_eq_nil_iff]
  constructor
  · intro h p hp
    have hsf := h p hp
    unfold PlotPareto.stepFilter at hsf
    by_cases hc : p.2.flatten.isEmpty
    · exact List.isEmpty_iff.mp hc
    · rw [if_neg hc] at hsf
      cases hsf
  · intro h p hp
    unfold PlotPareto.stepFilter
    rw [if_pos (List.isEmpty_iff.mpr (h p hp))]

/-- Destructuring a successful `aggregate` run into its three components. -/
theorem aggregate_ok_components (sources : List (String × List (List Vec)))
    (maxFe : Option Nat) (r : PlotPareto.AggResult)
    (h : PlotPareto.aggregate sources maxFe = Except.ok r) :
    r.algoFronts = (PlotPareto.processed sources maxFe).map
      (fun p => (p.1, PlotPareto.extract_frontier p.2)) ∧
    r.globalPF = PlotPareto.extract_frontier
      (((PlotPareto.processed sources maxFe).map Prod.snd).flatten) ∧
    r.contribution = (PlotPareto.extract_frontier
        (((PlotPareto.processed sources maxFe).map Prod.snd).flatten)).foldl
      (PlotPareto.attrStep (PlotPareto.pooled sources maxFe))
      (sources.map fun p => (p.1, 0, ([] : List Vec))) := by
  unfold PlotPareto.aggregate at h
  by_cases hemp : (PlotPareto.processed sources maxFe).isEmpty
  · rw [if_pos hemp] at h
    exact Except.noConfusion h
  · rw [if_neg hemp] at h
    obtain rfl := (Except.ok.inj h).symm
    exact ⟨rfl, rfl, rfl⟩

/-- The update `bump` rewrites the looked-up entry of its own label. -/
theorem lookupS_bump_self (l : String) (pt : Vec) :
    ∀ acc : List (String × Nat × List Vec),
      PlotPareto.lookupS l (PlotPareto.bump l pt acc) =
        (PlotPareto.lookupS l acc).map fun e => (e.1 + 1, e.2 ++ [pt])
  | [] => by simp [PlotPareto.bump, PlotPareto.lookupS]
  | e :: rest => by
    by_cases he : e.1 = l
    · simp [PlotPareto.bump, PlotPareto.lookupS, he]
    · simp [PlotPareto.bump, PlotPareto.lookupS, he, lookupS_bump_self l pt rest]

/-- The update `bump` leaves other labels' entries alone. -/
theorem lookupS_bump_ne (l l' : String) (pt : Vec) (hne : l' ≠ l) :
    ∀ acc : List (String × Nat × List Vec),
      PlotPareto.lookupS l' (PlotPareto.bump l pt acc) =
        PlotPareto.lookupS l' acc
  | [] => by simp [PlotPareto.bump, PlotPareto.lookupS]
  | e :: rest => by
    by_cases he : e.1 = l
    · have hll' : ¬(l = l') := fun hc => hne hc.symm
      simp [PlotPareto.bump, PlotPareto.lookupS, he, hll']
    · by_cases he2 : e.1 = l'
      · simp [PlotPareto.bump, PlotPareto.lookupS, he, he2, hne]
      · simp [PlotPareto.bump, PlotPareto.lookupS, he, he2,
          lookupS_bump_ne l l' pt hne rest]

/-- The update `bump` does not change the label set. -/
theorem keys_bump (l : String) (pt : Vec) :
    ∀ acc : List (String × Nat × List Vec),
      (PlotPareto.bump l pt acc).map Prod.fst = acc.map Prod.fst
  | [] => rfl
  | e :: rest => by
    by_cases he : e.1 = l
    · simp [PlotPareto.bump, he]
    · simp [PlotPareto.bump, he, keys_bump l pt rest]

/-- One attribution step does not change the label set. -/
theorem keys_attrStep (pool : List (String × Vec))
    (acc : List (String × Nat × List Vec)) (pt : Vec) :
    (PlotPareto.attrStep pool acc pt).map Prod.fst = acc.map Prod.fst := by
  cases hm : PlotPareto.firstMatchLabel pool pt with
  | none => simp [PlotPareto.attrStep, hm]
  | some l => simp [PlotPareto.attrStep, hm, keys_bump]

/-- The attribution fold, characterised per label: an entry collects
exactly the global points whose first `allclose` match carries its label,
in order, and counts them. -/
theorem lookupS_foldl_attr (pool : List (String × Vec)) (l : String) :
    ∀ (pts : List Vec) (acc : List (String × Nat × List Vec)),
      PlotPareto.lookupS l (pts.foldl (PlotPareto.attrStep pool) acc) =
        (PlotPareto.lookupS l acc).map fun e =>
          (e.1 + (pts.filter fun pt =>
              decide (PlotPareto.firstMatchLabel pool pt = some l)).length,
           e.2 ++ pts.filter fun pt =>
              decide (PlotPareto.firstMatchLabel pool pt = some l))
  | [], acc => by
    cases h : PlotPareto.lookupS l acc <;> simp [h]
  | pt :: pts, acc => by
    rw [List.foldl_cons]
    cases hm : PlotPareto.firstMatchLabel pool pt with
    | none =>
      have hstep : PlotPareto.attrStep pool acc pt = acc := by
        simp [PlotPareto.attrStep, hm]
      rw [hstep, lookupS_foldl_attr pool l pts acc]
      have hfilt : (decide (PlotPareto.firstMatchLabel pool pt = some l)) = false := by
        simp [hm]
      simp [List.filter_cons, hfilt]
    | some l' =>
      have hstep : PlotPareto.attrStep pool acc pt = PlotPareto.bump l' pt acc := by
        simp [PlotPareto.attrStep, hm]
      rw [hstep, lookupS_foldl_attr pool l pts (PlotPareto.bump l' pt acc)]
      by_cases hl : l' = l
      · subst hl
        rw [lookupS_bump_self]
        have hfilt : (decide (PlotPareto.firstMatchLabel pool pt = some l')) = true := by
          simp [hm]
        cases hacc : PlotPareto.lookupS l' acc with
        | none => simp [hfilt]
        | some e =>
          simp only [Option.map_some', List.filter_cons, hfilt, if_true,
            List.length_cons, Option.some.injEq, Prod.mk.injEq]
          constructor
          · omega
          · simp
      · rw [lookupS_bump_ne l' l pt (fun hc => hl hc.symm)]
        have hfilt : (decide (PlotPareto.firstMatchLabel pool pt = some l)) = false := by
          simp [hm, hl]
        simp [List.filter_cons, hfilt]

/-- The initial attribution holds `(0, [])` for every input label. -/
theorem lookupS_init (l : String) :
    ∀ sources : List (String × List (List Vec)), l ∈ sources.map Prod.fst →
      PlotPareto.lookupS l (sources.map fun p => (p.1, 0, ([] : List Vec))) =
        some (0, [])
  | [], h => by simp at h
  | p :: ps, h => by
    by_cases he : p.1 = l
    · simp [PlotPareto.lookupS, he]
    · have hmem : l ∈ ps.map Prod.fst := by
        rw [List.map_cons] at h
        rcases List.mem_cons.mp h with hc | hc
        · exact absurd hc.symm he
        · exact hc
      simp [PlotPareto.lookupS, he, lookupS_init l ps hmem]

/-- The update `bump` on a present label adds exactly one to the total count. -/
theorem sumC_bump (l : String) (pt : Vec) :
    ∀ acc : List (String × Nat × List Vec), l ∈ acc.map Prod.fst →
      PlotPareto.sumC (PlotPareto.bump l pt acc) = PlotPareto.sumC acc + 1
  | [], h => by simp at h
  | e :: rest, h => by
    by_cases he : e.1 = l
    · simp only [PlotPareto.bump, he, if_true, PlotPareto.sumC, List.map_cons,
        List.sum_cons]
      omega
    · have hmem : l ∈ rest.map Prod.fst := by
        rw [List.map_cons] at h
        rcases List.mem_cons.mp h with hc | hc
        · exact absurd hc.symm he
        · exact hc
      have ih := sumC_bump l pt rest hmem
      simp only [PlotPareto.bump, he, if_false, PlotPareto.sumC, List.map_cons,
        List.sum_cons] at ih ⊢
      omega

/-- Each attributed point adds one to the total count, provided its first
match's label is present in the accumulator. -/
theorem sumC_foldl (pool : List (String × Vec)) :
    ∀ (pts : List Vec) (acc : List (String × Nat × List Vec)),
      (∀ pt ∈ pts, ∃ l, PlotPareto.firstMatchLabel pool pt = some l ∧
        l ∈ acc.map Prod.fst) →
      PlotPareto.sumC (pts.foldl (PlotPareto.attrStep pool) acc) =
        PlotPareto.sumC acc + pts.length
  | [], acc, _ => by simp
  | pt :: pts, acc, h => by
    obtain ⟨l, hm, hl⟩ := h pt (by simp)
    have hstep : PlotPareto.attrStep pool acc pt = PlotPareto.bump l pt acc := by
      simp [PlotPareto.attrStep, hm]
    have hrest : ∀ q ∈ pts, ∃ l', PlotPareto.firstMatchLabel pool q = some l' ∧
        l' ∈ (PlotPareto.bump l pt acc).map Prod.fst := by
      intro q hq
      obtain ⟨l', hm', hl'⟩ := h q (by simp [hq])
      exact ⟨l', hm', by rw [keys_bump]; exact hl'⟩
    rw [List.foldl_cons, hstep, sumC_foldl pool pts _ hrest,
      sumC_bump l pt acc hl, List.length_cons]
    omega

/-- Every pair drawn from `zip v v` has equal components. -/
theorem zip_self_eq : ∀ (v : Vec) (q : ℚ × ℚ), q ∈ v.zip v → q.1 = q.2
  | [], q, hq => absurd hq (List.not_mem_nil _)
  | x :: xs, q, hq => by
    rcases List.mem_cons.mp (by simpa [List.zip_cons_cons] using hq) with h | h
    · rw [h]
    · exact zip_self_eq xs q h

/-- Reflexivity: `np.allclose` accepts a row against itself (the tolerance bound is
non-negative). -/
theorem allclose_refl (v : Vec) : PlotPareto.allclose v v = true := by
  simp only [PlotPareto.allclose, beq_self_eq_true, Bool.true_and]
  rw [List.all_eq_true]
  intro q hq
  have hqq := zip_self_eq v q hq
  have hnn : (0 : ℚ) ≤ PlotPareto.atol + PlotPareto.rtol * |q.2| := by
    unfold PlotPareto.atol PlotPareto.rtol
    positivity
  simp [hqq, hnn]

/-- Every pooled row's vector occurs in the flattened score matrix and
conversely: a flattened row always carries some label in the pool. -/
theorem mem_pooled_of_mem_allScores (sources : List (String × List (List Vec)))
    (maxFe : Option Nat) (v : Vec)
    (hv : v ∈ ((PlotPareto.processed sources maxFe).map Prod.snd).flatten) :
    ∃ l, (l, v) ∈ PlotPareto.pooled sources maxFe := by
  rw [List.mem_flatten] at hv
  obtain ⟨scores, hs, hvs⟩ := hv
  obtain ⟨p, hp, rfl⟩ := List.mem_map.mp hs
  refine ⟨p.1, ?_⟩
  unfold PlotPareto.pooled
  rw [List.mem_flatten]
  exact ⟨p.2.map fun w => (p.1, w), List.mem_map.mpr ⟨p, hp, rfl⟩,
    List.mem_map.mpr ⟨v, hvs, rfl⟩⟩

/-- Labels of surviving step-1 entries come from the input mapping. -/
theorem processed_key_sub (sources : List (String × List (List Vec)))
    (maxFe : Option Nat) (p : String × List Vec)
    (hp : p ∈ PlotPareto.processed sources maxFe) :
    p.1 ∈ sources.map Prod.fst := by
  unfold PlotPareto.processed at hp
  obtain ⟨q, hq, hfq⟩ := List.mem_filterMap.mp hp
  unfold PlotPareto.stepFilter at hfq
  by_cases hc : q.2.flatten.isEmpty
  · rw [if_pos hc] at hfq
    cases hfq
  · rw [if_neg hc] at hfq
    have hq1 : p.1 = q.1 := by
      rw [← Option.some.inj hfq]
    rw [hq1]
    exact List.mem_map.mpr ⟨q, hq, rfl⟩

/-- A pooled row's label comes from the input mapping. -/
theorem pooled_label_mem (sources : List (String × List (List Vec)))
    (maxFe : Option Nat) (l : String) (v : Vec)
    (h : (l, v) ∈ PlotPareto.pooled sources maxFe) :
    l ∈ sources.map Prod.fst := by
  unfold PlotPareto.pooled at h
  rw [List.mem_flatten] at h
  obtain ⟨lst, hlst, hmem⟩ := h
  obtain ⟨p, hp, rfl⟩ := List.mem_map.mp hlst
  obtain ⟨w, _, heq⟩ := List.mem_map.mp hmem
  have hl : p.1 = l := congrArg Prod.fst heq
  rw [← hl]
  exact processed_key_sub sources maxFe p hp

/-- A point that occurs in the pool always finds a first `allclose` match,
whose label is a pool label. -/
theorem firstMatchLabel_exists (pool : List (String × Vec)) (pt : Vec)
    (l0 : String) (hmem : (l0, pt) ∈ pool) :
    ∃ l, PlotPareto.firstMatchLabel pool pt = some l ∧
      l ∈ pool.map Prod.fst := by
  unfold PlotPareto.firstMatchLabel
  cases hf : pool.find? (fun sv => PlotPareto.allclose sv.2 pt) with
  | none =>
    rw [List.find?_eq_none] at hf
    exact absurd (allclose_refl pt) (by simpa using hf (l0, pt) hmem)
  | some sv =>
    exact ⟨sv.1, rfl, List.mem_map.mpr ⟨sv, List.mem_of_find?_eq_some hf, rfl⟩⟩

/-- The extracted frontier is a subset of its input. -/
theorem extract_frontier_subset (vectors : List Vec) (v : Vec)
    (hv : v ∈ PlotPareto.extract_frontier vectors) : v ∈ vectors :=
  List.mem_of_mem_filter hv

/-- The initial attribution's total count is zero. -/
theorem sumC_init : ∀ sources : List (String × List (List Vec)),
    PlotPareto.sumC (sources.map fun p => (p.1, 0, ([] : List Vec))) = 0
  | [] => rfl
  | p :: ps => by
    have ih := sumC_init ps
    simp only [List.map_cons, PlotPareto.sumC, List.sum_cons] at ih ⊢
    omega

/-- Lookup misses labels that are absent from the key list. -/
theorem lookupS_eq_none_of_not_mem {α : Type} (l : String) :
    ∀ xs : List (String × α), l ∉ xs.map Prod.fst →
      PlotPareto.lookupS l xs = none
  | [], _ => rfl
  | e :: rest, h => by
    have he : ¬(e.1 = l) := fun hc => h (by
      rw [List.map_cons]
      exact List.mem_cons.mpr (Or.inl hc.symm))
    have hr : l ∉ rest.map Prod.fst := fun hc => h (by
      rw [List.map_cons]
      exact List.mem_cons.mpr (Or.inr hc))
    simp [PlotPareto.lookupS, he, lookupS_eq_none_of_not_mem l rest hr]

/-- A pooled row's label is a label of a surviving step-1 entry. -/
theorem pooled_label_processed (sources : List (String × List (List Vec)))
    (maxFe : Option Nat) (l : String) (v : Vec)
    (h : (l, v) ∈ PlotPareto.pooled sources maxFe) :
    l ∈ (PlotPareto.processed sources maxFe).map Prod.fst := by
  unfold PlotPareto.pooled at h
  rw [List.mem_flatten] at h
  obtain ⟨lst, hlst, hmem⟩ := h
  obtain ⟨p, hp, rfl⟩ := List.mem_map.mp hlst
  obtain ⟨w, _, heq⟩ := List.mem_map.mp hmem
  exact List.mem_map.mpr ⟨p, hp, congrArg Prod.fst heq⟩

/-- A label whose source collected nothing does not survive step 1 (keys
unique, as for a Python dict). -/
theorem not_mem_processed_keys :
    ∀ (sources : List (String × List (List Vec))) (maxFe : Option Nat)
      (l : String) (files : List (List Vec)),
      (sources.map Prod.fst).Nodup → (l, files) ∈ sources →
      files.flatten = ([] : List Vec) →
      l ∉ (PlotPareto.processed sources maxFe).map Prod.fst
  | [], _, l, files, _, hmem, _ => by simp at hmem
  | p :: ps, maxFe, l, files, hnd, hmem, hemp => by
    rw [List.map_cons, List.nodup_cons] at hnd
    obtain ⟨hp1, hnd'⟩ := hnd
    rcases List.mem_cons.mp hmem with hc | hc
    · obtain rfl := hc.symm
      have hf : PlotPareto.stepFilter maxFe (l, files) = none := by
        simp [PlotPareto.stepFilter, hemp]
      unfold PlotPareto.processed
      rw [List.filterMap_cons_none hf]
      intro hcontra
      obtain ⟨q, hq, hql⟩ := List.mem_map.mp hcontra
      have := processed_key_sub ps maxFe q hq
      rw [hql] at this
      exact hp1 this
    · have ih := not_mem_processed_keys ps maxFe l files hnd' hc hemp
      have hlmem : l ∈ ps.map Prod.fst := List.mem_map.mpr ⟨(l, files), hc, rfl⟩
      unfold PlotPareto.processed
      cases hfh : PlotPareto.stepFilter maxFe p with
      | none =>
        rw [List.filterMap_cons_none hfh]
        exact ih
      | some b =>
        rw [List.filterMap_cons_some hfh]
        unfold PlotPareto.stepFilter at hfh
        have hb1 : b.1 = p.1 := by
          by_cases hc2 : p.2.flatten.isEmpty
          · rw [if_pos hc2] at hfh
            cases hfh
          · rw [if_neg hc2] at hfh
            exact (congrArg Prod.fst (Option.some.inj hfh)).symm
        intro hcontra
        rw [List.map_cons] at hcontra
        rcases List.mem_cons.mp hcontra with hc2 | hc2
        · rw [hc2, hb1] at hlmem
          exact hp1 hlmem
        · exact ih hc2

/-- Per-label view of the per-source fronts built by `aggregate` (keys
unique): a source's entry is absent when it collected nothing, and is the
frontier of its truncated sequence otherwise. -/
theorem lookupS_fronts :
    ∀ (sources : List (String × List (List Vec))) (maxFe : Option Nat)
      (l : String) (files : List (List Vec)),
      (sources.map Prod.fst).Nodup → (l, files) ∈ sources →
      PlotPareto.lookupS l ((PlotPareto.processed sources maxFe).map
        fun p => (p.1, PlotPareto.extract_frontier p.2)) =
        if files.flatten = ([] : List Vec) then none
        else some (PlotPareto.extract_frontier
          (PlotPareto.truncateFe maxFe files.flatten))
  | [], _, l, files, _, hmem => by simp at hmem
  | p :: ps, maxFe, l, files, hnd, hmem => by
    rw [List.map_cons, List.nodup_cons] at hnd
    obtain ⟨hp1, hnd'⟩ := hnd
    rcases List.mem_cons.mp hmem with hc | hc
    · obtain rfl := hc.symm
      unfold PlotPareto.processed
      by_cases hfl : files.flatten = ([] : List Vec)
      · have hf : PlotPareto.stepFilter maxFe (l, files) = none := by
          simp [PlotPareto.stepFilter, hfl]
        rw [List.filterMap_cons_none hf, if_pos hfl]
        apply lookupS_eq_none_of_not_mem
        intro hcontra
        obtain ⟨q, hq, hql⟩ := List.mem_map.mp hcontra
        obtain ⟨w, hw, rfl⟩ := List.mem_map.mp hq
        have := processed_key_sub ps maxFe w hw
        rw [show ((w.1, PlotPareto.extract_frontier w.2) : String × List Vec).1
            = w.1 from rfl] at hql
        rw [hql] at this
        exact hp1 this
      · have hf : PlotPareto.stepFilter maxFe (l, files) =
            some (l, PlotPareto.truncateFe maxFe files.flatten) := by
          simp [PlotPareto.stepFilter, hfl]
        rw [List.filterMap_cons_some hf, if_neg hfl]
        simp [PlotPareto.lookupS]
    · have ih := lookupS_fronts ps maxFe l files hnd' hc
      have hlp : ¬(p.1 = l) := by
        intro he
        exact hp1 (he ▸ List.mem_map.mpr ⟨(l, files), hc, rfl⟩)
      unfold PlotPareto.processed
      cases hfh : PlotPareto.stepFilter maxFe p with
      | none =>
        rw [List.filterMap_cons_none hfh]
        exact ih
      | some b =>
        rw [List.filterMap_cons_some hfh]
        unfold PlotPareto.stepFilter at hfh
        have hb1 : b.1 = p.1 := by
          by_cases hc2 : p.2.flatten.isEmpty
          · rw [if_pos hc2] at hfh
            cases hfh
          · rw [if_neg hc2] at hfh
            exact (congrArg Prod.fst (Option.some.inj hfh)).symm
        rw [List.map_cons]
        have hbl : ¬(((b.1, PlotPareto.extract_frontier b.2) :
            String × List Vec).1 = l) := by
          rw [show ((b.1, PlotPareto.extract_frontier b.2) :
            String × List Vec).1 = b.1 from rfl, hb1]
          exact hlp
        simp only [PlotPareto.lookupS, hbl, if_false]
        exact ih

/-- C4: for every successful aggregation, the per-source attributed counts
sum to the number of global-frontier points: each global point is a pooled
row, so it `allclose`-matches at least itself, the first match's label is
one of the input labels, and the `break` credits it exactly once. -/
theorem aggregate_attribution_conservation
    (sources : List (String × List (List Vec))) (maxFe : Option Nat)
    (r : PlotPareto.AggResult)
    (hok : PlotPareto.aggregate sources maxFe = Except.ok r) :
    PlotPareto.sumC r.contribution = r.globalPF.length := by
  obtain ⟨-, hg, hc⟩ := aggregate_ok_components sources maxFe r hok
  have hyp : ∀ pt ∈ PlotPareto.extract_frontier
      (((PlotPareto.processed sources maxFe).map Prod.snd).flatten),
      ∃ l, PlotPareto.firstMatchLabel (PlotPareto.pooled sources maxFe) pt
          = some l ∧
        l ∈ (sources.map fun p => (p.1, 0, ([] : List Vec))).map Prod.fst := by
    intro pt hpt
    obtain ⟨l0, hl0⟩ := mem_pooled_of_mem_allScores sources maxFe pt
      (extract_frontier_subset _ pt hpt)
    obtain ⟨l, hfm, hlp⟩ := firstMatchLabel_exists _ pt l0 hl0
    refine ⟨l, hfm, ?_⟩
    obtain ⟨sv, hsv, rfl⟩ := List.mem_map.mp hlp
    have hsrc : sv.1 ∈ sources.map Prod.fst :=
      pooled_label_mem sources maxFe sv.1 sv.2 (by simpa using hsv)
    simpa [List.map_map, Function.comp] using hsrc
  rw [hc, hg, sumC_foldl _ _ _ hyp, sumC_init]
  omega

/-- C2 amended (numpy's default `rtol=1e-5` stays in force): each
global-frontier point is credited to exactly the first pooled vector, in
pooling order, whose coordinates all satisfy
`|score[i] - point[i]| ≤ 1e-8 + 1e-5 * |point[i]|` (a mixed
absolute-plus-relative tolerance, not a pure absolute one), and matching
stops at that first match, so each point is attributed at most once. -/
theorem aggregate_attribution_first_match :
    (∀ (sources : List (String × List (List Vec))) (maxFe : Option Nat)
        (r : PlotPareto.AggResult) (l : String),
      PlotPareto.aggregate sources maxFe = Except.ok r →
      l ∈ sources.map Prod.fst →
      PlotPareto.lookupS l r.contribution =
        some ((r.globalPF.filter fun pt =>
            decide (PlotPareto.firstMatchLabel
              (PlotPareto.pooled sources maxFe) pt = some l)).length,
          r.globalPF.filter fun pt =>
            decide (PlotPareto.firstMatchLabel
              (PlotPareto.pooled sources maxFe) pt = some l))) ∧
    (∀ score point : Vec, PlotPareto.allclose score point = true ↔
      (score.length = point.length ∧
        ∀ i < score.length, |score.getD i 0 - point.getD i 0| ≤
          PlotPareto.atol + PlotPareto.rtol * |point.getD i 0|)) := by
  constructor
  · intro sources maxFe r l hok hl
    obtain ⟨-, hg, hc⟩ := aggregate_ok_components sources maxFe r hok
    rw [hc, hg, lookupS_foldl_attr, lookupS_init l sources hl]
    simp
  · intro score point
    unfold PlotPareto.allclose
    rw [Bool.and_eq_true, beq_iff_eq]
    constructor
    · rintro ⟨hlen, hall⟩
      refine ⟨hlen, fun i hi => ?_⟩
      have := (zip_all_eq_true_iff
        (fun u v => decide (|u - v| ≤ PlotPareto.atol + PlotPareto.rtol * |v|))
        score point hlen).mp hall i hi
      simpa using this
    · rintro ⟨hlen, hall⟩
      refine ⟨hlen, (zip_all_eq_true_iff
        (fun u v => decide (|u - v| ≤ PlotPareto.atol + PlotPareto.rtol * |v|))
        score point hlen).mpr fun i hi => ?_⟩
      simpa using hall i hi

/-- C5 amended: a source that collected zero vectors is skipped with a
warning rather than failing, and is excluded from the per-source frontiers
— but (contrary to the claim) it still appears in the attribution
counts/points mappings, initialised from all input labels, with count `0`
and an empty point list. -/
theorem skipped_source_in_attribution
    (sources : List (String × List (List Vec))) (maxFe : Option Nat)
    (r : PlotPareto.AggResult) (l : String) (files : List (List Vec))
    (hnd : (sources.map Prod.fst).Nodup)
    (hmem : (l, files) ∈ sources)
    (hempty : files.flatten = ([] : List Vec))
    (hok : PlotPareto.aggregate sources maxFe = Except.ok r) :
    l ∉ r.algoFronts.map Prod.fst ∧
    PlotPareto.lookupS l r.contribution = some (0, []) := by
  obtain ⟨hf, -, hc⟩ := aggregate_ok_components sources maxFe r hok
  have hnp := not_mem_processed_keys sources maxFe l files hnd hmem hempty
  constructor
  · rw [hf]
    intro hcontra
    apply hnp
    obtain ⟨q, hq, hql⟩ := List.mem_map.mp hcontra
    obtain ⟨p, hp, rfl⟩ := List.mem_map.mp hq
    exact List.mem_map.mpr ⟨p, hp, by simpa using hql⟩
  · have hnol : ∀ pt, PlotPareto.firstMatchLabel
        (PlotPareto.pooled sources maxFe) pt ≠ some l := by
      intro pt hcontra
      unfold PlotPareto.firstMatchLabel at hcontra
      cases hfind : (PlotPareto.pooled sources maxFe).find?
          (fun sv => PlotPareto.allclose sv.2 pt) with
      | none =>
        rw [hfind] at hcontra
        cases hcontra
      | some sv =>
        rw [hfind] at hcontra
        have hsvl : sv.1 = l := Option.some.inj hcontra
        have hsv := List.mem_of_find?_eq_some hfind
        have hkey : sv.1 ∈ (PlotPareto.processed sources maxFe).map Prod.fst :=
          pooled_label_processed sources maxFe sv.1 sv.2 (by simpa using hsv)
        rw [hsvl] at hkey
        exact hnp hkey
    rw [hc, lookupS_foldl_attr,
      lookupS_init l sources (List.mem_map.mpr ⟨(l, files), hmem, rfl⟩)]
    have hfilt : (PlotPareto.extract_frontier
        (((PlotPareto.processed sources maxFe).map Prod.snd).flatten)).filter
        (fun pt => decide (PlotPareto.firstMatchLabel
          (PlotPareto.pooled sources maxFe) pt = some l)) = [] := by
      rw [List.filter_eq_nil_iff]
      intro pt _
      simp [hnol pt]
    simp [hfilt]

/-- C7 amended: the aggregation raises its EmptyInput `ValueError` exactly
when every source's concatenated collection is empty *before* truncation —
the emptiness check precedes the `max_fe` cutoff, so with `max_fe = 0` a
non-empty source still passes the check and empty structures are built
instead of an error. -/
theorem aggregate_empty_input_iff (sources : List (String × List (List Vec)))
    (maxFe : Option Nat) :
    PlotPareto.aggregate sources maxFe =
        Except.error PlotPareto.AggError.emptyInput ↔
      ∀ p ∈ sources, p.2.flatten = ([] : List Vec) := by
  rw [← processed_eq_nil_iff sources maxFe]
  unfold PlotPareto.aggregate
  constructor
  · intro h
    by_cases hemp : (PlotPareto.processed sources maxFe).isEmpty
    · exact List.isEmpty_iff.mp hemp
    · rw [if_neg hemp] at h
      exact Except.noConfusion h
  · intro h
    rw [if_pos (List.isEmpty_iff.mpr h)]

/-- C8 amended: for a positive limit `k` and a source with more than `k`
collected vectors, the per-source frontier under `limit = k` equals the one
from running `aggregate` without a limit on just that source's first `k`
vectors (for `k = 0` the two runs differ: the skip/emptiness checks precede
truncation). -/
theorem aggregate_limit_prefix (sources : List (String × List (List Vec)))
    (l : String) (files : List (List Vec)) (k : Nat)
    (r r' : PlotPareto.AggResult)
    (hnd : (sources.map Prod.fst).Nodup)
    (hmem : (l, files) ∈ sources)
    (hk : 1 ≤ k) (hlen : k < files.flatten.length)
    (hok : PlotPareto.aggregate sources (some k) = Except.ok r)
    (hok' : PlotPareto.aggregate [(l, [files.flatten.take k])] none
      = Except.ok r') :
    PlotPareto.lookupS l r.algoFronts = PlotPareto.lookupS l r'.algoFronts := by
  obtain ⟨hf, -, -⟩ := aggregate_ok_components sources (some k) r hok
  obtain ⟨hf', -, -⟩ :=
    aggregate_ok_components [(l, [files.flatten.take k])] none r' hok'
  have htake : ([files.flatten.take k] : List (List Vec)).flatten =
      files.flatten.take k := by
    simp
  have hne : files.flatten ≠ ([] : List Vec) := by
    intro hcontra
    rw [hcontra] at hlen
    simp at hlen
  have hne' : files.flatten.take k ≠ ([] : List Vec) := by
    intro hcontra
    have hlen2 : (files.flatten.take k).length = 0 := by
      rw [hcontra]
      rfl
    rw [List.length_take] at hlen2
    omega
  rw [hf, hf', lookupS_fronts sources (some k) l files hnd hmem,
    lookupS_fronts [(l, [files.flatten.take k])] none l [files.flatten.take k]
      (by simp) (by simp)]
  rw [htake, if_neg hne, if_neg hne']
  simp [PlotPareto.truncateFe]

/-! ## Concrete runs

Batteries marks the rational arithmetic operations `@[irreducible]`, which
blocks `decide` from evaluating the tolerance comparisons inside
`allclose`; the kernel itself reduces them fine, so we locally restore
reducibility to evaluate the pipeline on concrete inputs. -/

section ConcreteRuns

set_option allowUnsafeReducibility true
attribute [local semireducible] Rat.add Rat.sub Rat.mul Rat.div Rat.inv

/-- Run of `aggregate` on the spec §8 sample scenario, evaluated. -/
theorem sample_eval :
    PlotPareto.aggregate sampleSources none = Except.ok sampleResult := by
  decide

/-- Run of `aggregate` with source "A" contributing nothing, evaluated. -/
theorem emptySource_eval :
    PlotPareto.aggregate emptySourceInput none = Except.ok emptySourceResult := by
  decide

/-- Run of `aggregate` on the near-match scenario, evaluated. -/
theorem mismatch_eval :
    PlotPareto.aggregate mismatchSources none = Except.ok mismatchResult := by
  decide

/-- C2 counterexample: the sole global-frontier point `[1000, 0]` is B's
own row, and the first pooled vector matching it within an absolute
per-coordinate tolerance of 1e-8 is B's — yet the code credits A, whose
row `[1000.005, 0]` differs by 0.005 in the first coordinate and matches
only thanks to numpy's default relative tolerance `rtol=1e-5`. -/
theorem attribution_not_absolute_counterexample :
    PlotPareto.aggregate mismatchSources none = Except.ok mismatchResult ∧
    PlotPareto.firstAbsMatchLabel (PlotPareto.pooled mismatchSources none)
      [1000, 0] = some "B" ∧
    PlotPareto.firstMatchLabel (PlotPareto.pooled mismatchSources none)
      [1000, 0] = some "A" ∧
    PlotPareto.lookupS "A" mismatchResult.contribution =
      some (1, [[1000, 0]]) ∧
    PlotPareto.lookupS "B" mismatchResult.contribution = some (0, []) :=
  ⟨mismatch_eval, by decide, by decide, by decide, by decide⟩

/-- Witness for C2 amended at the sample scenario and label "A". -/
theorem aggregate_attribution_first_match_witness :
    PlotPareto.lookupS "A" sampleResult.contribution =
      some (2, [[(-18 : ℚ), -17], [-19, -15]]) :=
  Eq.trans
    (aggregate_attribution_first_match.1 sampleSources none sampleResult "A"
      sample_eval (by decide))
    (by decide)

/-- Witness for C4 at the sample scenario. -/
theorem aggregate_attribution_conservation_witness :
    PlotPareto.sumC sampleResult.contribution = sampleResult.globalPF.length :=
  aggregate_attribution_conservation sampleSources none sampleResult sample_eval

/-- C5 counterexample: source "A" contributes zero vectors; it is skipped
and absent from the per-source frontiers, but — contrary to the claim — it
appears in the attribution counts/points mappings with `0`/`[]`. -/
theorem skipped_source_counterexample :
    PlotPareto.aggregate emptySourceInput none = Except.ok emptySourceResult ∧
    "A" ∉ emptySourceResult.algoFronts.map Prod.fst ∧
    PlotPareto.lookupS "A" emptySourceResult.contribution = some (0, []) :=
  ⟨emptySource_eval, by decide, by decide⟩

/-- Witness for C5 amended at `emptySourceInput`. -/
theorem skipped_source_in_attribution_witness :
    "A" ∉ emptySourceResult.algoFronts.map Prod.fst ∧
    PlotPareto.lookupS "A" emptySourceResult.contribution = some (0, []) :=
  skipped_source_in_attribution emptySourceInput none emptySourceResult "A" []
    (by decide) (by decide) rfl emptySource_eval

/-- C7 counterexample: with `max_fe = 0` every source has zero vectors
after truncation, yet the aggregation does not fail — it returns empty
structures, because the emptiness check precedes truncation. -/
theorem empty_after_limit_counterexample :
    (∀ p ∈ ([("A", [[[(1 : ℚ), 2]]])] : List (String × List (List Vec))),
        PlotPareto.truncateFe (some 0) p.2.flatten = []) ∧
    PlotPareto.aggregate [("A", [[[(1 : ℚ), 2]]])] (some 0) =
      Except.ok
        { algoFronts := [("A", [])]
          globalPF := []
          contribution := [("A", 0, [])] } :=
  ⟨by decide, by decide⟩

/-- Witness for C7 amended: a source with no vectors at all does raise
EmptyInput. -/
theorem aggregate_empty_input_iff_witness :
    PlotPareto.aggregate [("A", ([] : List (List Vec)))] none =
      Except.error PlotPareto.AggError.emptyInput :=
  (aggregate_empty_input_iff [("A", ([] : List (List Vec)))] none).mpr
    (by decide)

/-- C8 counterexample: with limit `k = 0`, a non-empty source gets an
empty local frontier recorded, while the direct run on its first 0 entries
fails with EmptyInput and records no frontier for it at all. -/
theorem limit_zero_counterexample :
    PlotPareto.aggregate [("B", [[[(5 : ℚ), 6]]])] (some 0) =
      Except.ok
        { algoFronts := [("B", [])]
          globalPF := []
          contribution := [("B", 0, [])] } ∧
    PlotPareto.aggregate [("B", ([[]] : List (List Vec)))] none =
      Except.error PlotPareto.AggError.emptyInput :=
  ⟨by decide, by decide⟩

/-- Run of `aggregate limitSources (some 1)`, evaluated. -/
theorem limit_eval :
    PlotPareto.aggregate limitSources (some 1) = Except.ok limitResult := by
  decide

/-- The direct run on just the first entry of `limitSources`'s source,
evaluated: same result. -/
theorem limitDirect_eval :
    PlotPareto.aggregate [("A", [[[(1 : ℚ), 2]]])] none =
      Except.ok limitResult := by
  decide

/-- Witness for C8 amended at `limitSources` and `k = 1`. -/
theorem aggregate_limit_prefix_witness :
    PlotPareto.lookupS "A" limitResult.algoFronts =
      PlotPareto.lookupS "A" limitResult.algoFronts :=
  aggregate_limit_prefix limitSources "A" [[[1, 2], [3, 4]]] 1 limitResult
    limitResult (by decide) (by decide) (by decide) (by decide) limit_eval
    limitDirect_eval

end ConcreteRuns
